import Mathlib

/-!
Verification of the pfund-kit utility toolkit against its specification.

The development shallowly embeds the two core components of the spec — the
alias resolution registry (AliasRegistry) and the lazy log-handler
indirection (LazyHandler) — together with two helpers that are present in
the source tree (cli_args_to_kwargs and add_logger_prefix), and proves the
specified properties about them.

Python dictionaries are embedded as association lists in declaration order
(first match wins on lookup; insertion replaces in place, as in Python 3.7+
dicts), machine-level concerns do not arise (all data is strings and small
naturals), and fallible operations return Except.
-/

/-- Generic association-list lookup, first match wins (dict access order). -/
def alookup {α : Type} : List (String × α) → String → Option α
  | [], _ => none
  | p :: rest, k => if p.1 = k then some p.2 else alookup rest k

/-- Lower-casing of a single ASCII character, the case normalization used by
the case-insensitive registry mode. -/
def lowerChar (c : Char) : Char :=
  if 65 ≤ c.toNat ∧ c.toNat ≤ 90 then Char.ofNat (c.toNat + 32) else c

/-- Lower-casing of a string, character by character. -/
def lowerStr (s : String) : String := String.mk (s.data.map lowerChar)

/-- Whether the character list pat is a prefix of l. -/
def listHasPfx : List Char → List Char → Bool
  | _, [] => true
  | [], _ :: _ => false
  | a :: as, b :: bs => a == b && listHasPfx as bs

/-- Whether pat occurs as a contiguous sublist of l. -/
def listHasSub : List Char → List Char → Bool
  | [], pat => pat.isEmpty
  | l@(_ :: rest), pat => listHasPfx l pat || listHasSub rest pat

/-- Whether the string pat occurs as a substring of s (used to state that an
error message mentions a given name). -/
def strContains (s pat : String) : Bool := listHasSub s.data pat.data

/-- Modelled from the spec: the name normalization of AliasRegistry.
When case sensitivity is disabled, keys are normalized to lower case on
input and on every lookup path; otherwise names are used as-is. -/
def normName (caseSensitive : Bool) (n : String) : String :=
  if caseSensitive then n else lowerStr n

/-- Modelled from the spec: the state of an AliasRegistry, whose source file
(pfund_kit/aliase.py) is not in the source tree — only its tests are.
Forward mapping alias → canonical and reverse mapping canonical → alias,
both stored normalized, plus the effective comparison mode. -/
structure AliasRegistry where
  fwd : List (String × String)
  rev : List (String × String)
  caseSensitive : Bool
deriving DecidableEq

/-- Modelled from the spec: one insertion into the reverse index.  In the
default mode the first-seen alias for a canonical name is kept; when
conflicts are explicitly allowed, later entries silently override earlier
reverse-index entries for the same canonical value. -/
def revInsert (allowConflicts : Bool) (acc : List (String × String)) (c a : String) :
    List (String × String) :=
  if (alookup acc c).isSome then
    if allowConflicts then acc.map (fun p => if p.1 = c then (c, a) else p) else acc
  else acc ++ [(c, a)]

/-- Modelled from the spec: building the reverse index by walking the
declared pairs in order. -/
def buildRev (allowConflicts : Bool) (acc : List (String × String)) :
    List (String × String) → List (String × String)
  | [] => acc
  | (a, c) :: rest => buildRev allowConflicts (revInsert allowConflicts acc c a) rest

/-- Modelled from the spec: construction-time conflict detection.  Walk the
declared alias → canonical pairs in order against the previously seen pairs;
a pair conflicts when its canonical value was previously seen as an alias
key mapping to a different canonical value, or its alias key was previously
seen as the canonical value of a different alias.  The error message
identifies the colliding names. -/
def findConflict (prev : List (String × String)) :
    List (String × String) → Option String
  | [] => none
  | (a, c) :: rest =>
    match prev.find? (fun p => p.1 == c && p.2 != c) with
    | some q =>
        some ("Conflict: canonical " ++ c ++ " of alias " ++ a ++
          " collides with alias " ++ q.1 ++ " mapping to " ++ q.2)
    | none =>
      match prev.find? (fun p => p.2 == a && p.1 != a) with
      | some q =>
          some ("Conflict: alias " ++ a ++ " collides with the canonical target " ++
            q.2 ++ " of alias " ++ q.1)
      | none => findConflict (prev ++ [(a, c)]) rest

/-- Modelled from the spec: AliasRegistry construction from a declared
alias → canonical mapping.  Keys are normalized on input; with conflicts not
allowed a detected conflict is a configuration error fatal to construction. -/
def AliasRegistry.make (pairs : List (String × String)) (caseSensitive : Bool)
    (allowConflicts : Bool) : Except String AliasRegistry :=
  let fwd := pairs.map (fun p => (normName caseSensitive p.1, normName caseSensitive p.2))
  if allowConflicts then
    .ok ⟨fwd, buildRev true [] fwd, caseSensitive⟩
  else
    match findConflict [] fwd with
    | some msg => .error msg
    | none => .ok ⟨fwd, buildRev false [] fwd, caseSensitive⟩

/-- Modelled from the spec: resolve returns the canonical form for a known
alias and passes every other name through unchanged; it never fails. -/
def AliasRegistry.resolve (r : AliasRegistry) (name : String) : String :=
  match alookup r.fwd (normName r.caseSensitive name) with
  | some c => c
  | none => name

/-- Modelled from the spec: reverse lookup, canonical → alias, absent value
when no alias targets the name; it never fails. -/
def AliasRegistry.get_alias (r : AliasRegistry) (name : String) : Option String :=
  alookup r.rev (normName r.caseSensitive name)

/-- Modelled from the spec: whether the name is a declared alias. -/
def AliasRegistry.is_alias (r : AliasRegistry) (name : String) : Bool :=
  (alookup r.fwd (normName r.caseSensitive name)).isSome

/-- Modelled from the spec: whether the name is a canonical target. -/
def AliasRegistry.is_canonical (r : AliasRegistry) (name : String) : Bool :=
  r.fwd.any (fun p => p.2 == normName r.caseSensitive name)

/-- Modelled from the spec: membership — a known alias or a known canonical
target. -/
def AliasRegistry.contains (r : AliasRegistry) (name : String) : Bool :=
  r.is_alias name || r.is_canonical name

/-- Modelled from the spec: strict indexed access, restricted to declared
aliases; a key-not-found error otherwise. -/
def AliasRegistry.getItem (r : AliasRegistry) (name : String) : Except String String :=
  match alookup r.fwd (normName r.caseSensitive name) with
  | some c => .ok c
  | none => .error ("KeyError: " ++ name)

/-- Modelled from the spec: like indexed access but returning a default
instead of failing. -/
def AliasRegistry.get (r : AliasRegistry) (name : String) (dflt : Option String) :
    Option String :=
  match alookup r.fwd (normName r.caseSensitive name) with
  | some c => some c
  | none => dflt

/-- Modelled from the spec: the declared (alias, canonical) pairs in order. -/
def AliasRegistry.items (r : AliasRegistry) : List (String × String) := r.fwd

/-- Modelled from the spec: the forward alias → canonical export. -/
def AliasRegistry.to_dict (r : AliasRegistry) : List (String × String) := r.fwd

/-- Modelled from the spec: the canonical → alias export, one alias per
canonical. -/
def AliasRegistry.to_reverse_dict (r : AliasRegistry) : List (String × String) := r.rev

/-- Modelled from the spec: the count of declared alias entries. -/
def AliasRegistry.size (r : AliasRegistry) : Nat := r.fwd.length

/-- A log record as the handler sees it: origin name, numeric severity, and
message text. -/
structure LogRecord where
  origin : String
  levelno : Nat
  msg : String
deriving DecidableEq

/-- Modelled from the spec: the underlying target sink once constructed by
the lazy wrapper (the LazyHandler source, pfund_kit/logging/handlers, is not
in the source tree — only its tests are).  It records the configuration
copied over at construction time and the records dispatched to it. -/
structure TargetHandler where
  className : String
  filename : String
  kwargs : List (String × String)
  hname : Option String
  level : Nat
  written : List LogRecord
deriving DecidableEq

/-- Modelled from the spec: the lazy wrapper state — target path, optional
target class identifier, constructor keyword arguments, minimum severity,
record filters, optional name, the at-most-once constructed target, and a
count of how many times a target was constructed. -/
structure LazyHandler where
  filename : String
  target_class : Option String
  target_kwargs : List (String × String)
  level : Nat
  filters : List (LogRecord → Bool)
  hname : Option String
  target : Option TargetHandler
  createdCount : Nat

/-- Modelled from the spec: wrapper construction.  It is a total function:
no validation of the target class happens here — laziness extends to error
discovery. -/
def LazyHandler.init (filename : String) (tc : Option String)
    (kw : List (String × String)) (lvl : Nat) : LazyHandler :=
  ⟨filename, tc, kw, lvl, [], none, none, 0⟩

/-- Modelled from the spec: the explicit registry of resolvable target sink
class identifiers (the factory mapping from string identifiers to
constructors; an identifier outside the table is unresolvable). -/
def knownTargetClasses : List String :=
  ["logging.FileHandler", "logging.StreamHandler",
   "pfund_kit.logging.handlers.CompressedTimedRotatingFileHandler"]

/-- Modelled from the spec: dynamic resolution of a target class identifier,
failing (with none) on an unknown identifier. -/
def resolveTargetClass (cls : String) : Option String :=
  if cls ∈ knownTargetClasses then some cls else none

/-- Modelled from the spec: obtain the target sink, constructing it on first
need.  A missing target class identifier or an unresolvable one is a
configuration error raised here, from the first emit that needs the target. -/
def LazyHandler.ensureTarget (h : LazyHandler) : Except String (LazyHandler × TargetHandler) :=
  match h.target with
  | some t => .ok (h, t)
  | none =>
    match h.target_class with
    | none => .error "target_class must be specified for LazyHandler"
    | some cls =>
      match resolveTargetClass cls with
      | none => .error ("Failed to import target handler class " ++ cls)
      | some cls2 =>
        let t : TargetHandler := ⟨cls2, h.filename, h.target_kwargs, h.hname, h.level, []⟩
        .ok ({ h with target := some t, createdCount := h.createdCount + 1 }, t)

/-- Modelled from the spec: emit constructs the target on first call and
dispatches the record to it; subsequent calls reuse the constructed target. -/
def LazyHandler.emit (h : LazyHandler) (r : LogRecord) : Except String LazyHandler :=
  match h.ensureTarget with
  | .error e => .error e
  | .ok (h2, t) => .ok { h2 with target := some { t with written := t.written ++ [r] } }

/-- Modelled from the spec: the severity/filter gate — a record passes when
it is at or above the configured minimum severity and accepted by every
configured filter. -/
def recordPasses (h : LazyHandler) (r : LogRecord) : Bool :=
  decide (h.level ≤ r.levelno) && h.filters.all (fun f => f r)

/-- Modelled from the spec: handle evaluates the record against the severity
threshold and the filters before emit may trigger target construction; a
rejected record must not cause the target resource to be created. -/
def LazyHandler.handle (h : LazyHandler) (r : LogRecord) : Except String LazyHandler :=
  if recordPasses h r then h.emit r else .ok h

/-- Handling a sequence of records in order, stopping at the first error. -/
def LazyHandler.handleAll (h : LazyHandler) : List LogRecord → Except String LazyHandler
  | [] => .ok h
  | r :: rs =>
    match h.handle r with
    | .error e => .error e
    | .ok h2 => h2.handleAll rs

/-- Modelled from the spec: per-thread control state of the double-checked
lazy initialization protocol — before the unsynchronized check, waiting for
the lock after seeing the flag unset, inside the critical section, or done
holding the observed target instance (instances are numbered by construction
order, so identity-equality is equality of the observed number). -/
inductive TState where
  | start
  | waiting
  | critical
  | done (obs : Nat)
deriving DecidableEq

/-- Modelled from the spec: the shared state of one LazyHandler under
concurrent first use by n threads — the is-initialized flag, the constructed
target instance (if any), the mutex owner, and how many target instances
were ever constructed. -/
structure Sys (n : Nat) where
  threads : Fin n → TState
  initialized : Bool
  target : Option Nat
  lockHeld : Option (Fin n)
  constructed : Nat

/-- All threads about to emit on a single uninitialized wrapper. -/
def initSys (n : Nat) : Sys n :=
  ⟨fun _ => .start, false, none, none, 0⟩

/-- Modelled from the spec: one interleaved step of the double-checked
locking protocol.  A thread either takes the unsynchronized fast path when
the flag is already set, or records that the flag was unset, acquires the
mutex, rechecks under the lock, and constructs the target only when the
recheck still finds it missing. -/
inductive Step {n : Nat} : Sys n → Sys n → Prop where
  | fastPath (s : Sys n) (i : Fin n) (v : Nat)
      (hpc : s.threads i = TState.start) (hinit : s.initialized = true)
      (htgt : s.target = some v) :
      Step s ⟨Function.update s.threads i (TState.done v), s.initialized, s.target,
        s.lockHeld, s.constructed⟩
  | slowStart (s : Sys n) (i : Fin n)
      (hpc : s.threads i = TState.start) (hinit : s.initialized = false) :
      Step s ⟨Function.update s.threads i TState.waiting, s.initialized, s.target,
        s.lockHeld, s.constructed⟩
  | acquire (s : Sys n) (i : Fin n)
      (hpc : s.threads i = TState.waiting) (hlock : s.lockHeld = none) :
      Step s ⟨Function.update s.threads i TState.critical, s.initialized, s.target,
        some i, s.constructed⟩
  | recheckHit (s : Sys n) (i : Fin n) (v : Nat)
      (hpc : s.threads i = TState.critical) (hlock : s.lockHeld = some i)
      (hinit : s.initialized = true) (htgt : s.target = some v) :
      Step s ⟨Function.update s.threads i (TState.done v), s.initialized, s.target,
        none, s.constructed⟩
  | construct (s : Sys n) (i : Fin n)
      (hpc : s.threads i = TState.critical) (hlock : s.lockHeld = some i)
      (hinit : s.initialized = false) :
      Step s ⟨Function.update s.threads i (TState.done s.constructed), true,
        some s.constructed, none, s.constructed + 1⟩

/-- States reachable by interleaving protocol steps from the all-start
state. -/
inductive Reachable (n : Nat) : Sys n → Prop where
  | init : Reachable n (initSys n)
  | step {s s2 : Sys n} : Reachable n s → Step s s2 → Reachable n s2

/-- A CLI kwarg value: either the following token's text or the boolean
True given to a value-less flag. -/
inductive CliValue where
  | str (s : String)
  | flag
deriving DecidableEq

/-- Python dict assignment on an association list: replace in place when the
key exists, else append. -/
def dictInsert (d : List (String × CliValue)) (k : String) (v : CliValue) :
    List (String × CliValue) :=
  if d.any (fun p => p.1 = k) then d.map (fun p => if p.1 = k then (k, v) else p)
  else d ++ [(k, v)]

/-- Whether the string s starts with pat (the embedding of startswith,
computed on the character data). -/
def strStartsWith (s pat : String) : Bool := listHasPfx s.data pat.data

/-- The kwarg key made from an option token: strip the leading two
characters and turn every remaining dash into an underscore (from
cli_args_to_kwargs in src/pfund_kit/cli/utils.py; the dash is a single
character, so replace is a character map). -/
def cliKey (a : String) : String :=
  String.mk ((a.data.drop 2).map (fun c => if c = Char.ofNat 45 then Char.ofNat 95 else c))

/-- The scanning loop of cli_args_to_kwargs (src/pfund_kit/cli/utils.py):
an option token followed by a non-option token consumes it as its value; an
option token followed by another option token or by nothing becomes a True
flag; other tokens are skipped. -/
def cliLoop (acc : List (String × CliValue)) : List String → List (String × CliValue)
  | [] => acc
  | [a] => if strStartsWith a "--" then dictInsert acc (cliKey a) .flag else acc
  | a :: b :: rest =>
    if strStartsWith a "--" then
      if strStartsWith b "--" then cliLoop (dictInsert acc (cliKey a) .flag) (b :: rest)
      else cliLoop (dictInsert acc (cliKey a) (.str b)) rest
    else cliLoop acc (b :: rest)

/-- Translation of cli_args_to_kwargs (src/pfund_kit/cli/utils.py). -/
def cli_args_to_kwargs (args : List String) : List (String × CliValue) :=
  cliLoop [] args

/-- A logging configuration dict as add_logger_prefix sees it: the optional
loggers section (name → logger configuration, of opaque type α) and the
remaining top-level entries (opaque type β), which the function carries
through untouched. -/
structure LoggingConfig (α β : Type) where
  loggers : Option (List (String × α))
  rest : β

/-- Translation of add_logger_prefix (src/pfund_kit/logging/__init__.py):
fail when there is no loggers section; otherwise rename every logger except
the root logger and the prefix itself to prefix.name.  The embedding is
pure, matching the deep copy the source takes before editing. -/
def add_logger_prefix {α β : Type} (cfg : LoggingConfig α β) (pfx : String) :
    Except String (LoggingConfig α β) :=
  match cfg.loggers with
  | none => .error "logging_config must contain a loggers section"
  | some ls =>
    .ok ⟨some (ls.map (fun p =>
      (if p.1 = "root" ∨ p.1 = pfx then p.1 else pfx ++ "." ++ p.1, p.2))), cfg.rest⟩

/-- The registry of the basic tests: YF → YAHOO_FINANCE, case-sensitive. -/
def regC2 : AliasRegistry :=
  ⟨[("YF", "YAHOO_FINANCE")], [("YAHOO_FINANCE", "YF")], true⟩

/-- The case-insensitive registry built from yf → yahoo_finance. -/
def regC6 : AliasRegistry :=
  ⟨[("yf", "yahoo_finance")], [("yahoo_finance", "yf")], false⟩

/-- A registry with two aliases sharing one canonical name, default mode. -/
def regC7 : AliasRegistry :=
  ⟨[("A", "X"), ("B", "X")], [("X", "A")], true⟩

/-- The registry of the dict-access tests. -/
def regC8 : AliasRegistry :=
  ⟨[("YF", "YAHOO_FINANCE"), ("FMP", "FINANCIAL_MODELING_PREP")],
   [("YAHOO_FINANCE", "YF"), ("FINANCIAL_MODELING_PREP", "FMP")], true⟩

/-- A concrete logging config with a root logger and one named logger. -/
def cfgC10 : LoggingConfig Nat Nat := ⟨some [("root", 1), ("myapp", 2)], 7⟩

/-- The lazy handler of the deferred-creation test: FileHandler target, no
filters, minimum severity 40 (ERROR). -/
def hC3 : LazyHandler :=
  LazyHandler.init "test_level_deferred.log" (some "logging.FileHandler") [] 40

/-- Debug, info and warning records — all below the ERROR threshold. -/
def rsC3 : List LogRecord :=
  [⟨"test", 10, "Debug message"⟩, ⟨"test", 20, "Info message"⟩,
   ⟨"test", 30, "Warning message"⟩]

/-- The kwarg keys contributed by the option tokens of an argument list, in
order. -/
def optionKeys (args : List String) : List String :=
  (args.filter (fun a => strStartsWith a "--")).map cliKey

/-- The CLI argument list from the cli_args_to_kwargs docstring example. -/
def argsC9 : List String := ["--verbose", "--timeout", "30"]

/-- Protocol witness trace, step 1: thread 0 sees the flag unset. -/
def sC4a : Sys 10 :=
  ⟨Function.update (initSys 10).threads 0 TState.waiting, false, none, none, 0⟩

/-- Protocol witness trace, step 2: thread 0 acquires the lock. -/
def sC4b : Sys 10 :=
  ⟨Function.update sC4a.threads 0 TState.critical, false, none, some 0, 0⟩

/-- Protocol witness trace, step 3: thread 0 rechecks, constructs instance 0
and releases the lock. -/
def sC4c : Sys 10 :=
  ⟨Function.update sC4b.threads 0 (TState.done 0), true, some 0, none, 1⟩

/-- Protocol witness trace, step 4: thread 1 takes the fast path and
observes the same instance 0. -/
def sC4d : Sys 10 :=
  ⟨Function.update sC4c.threads 1 (TState.done 0), true, some 0, none, 1⟩

/-- The inductive invariant of the double-checked locking protocol: at most
one construction ever happens, the flag is set exactly when one target was
constructed, the constructed target is instance 0, and every finished thread
observed it on an initialized state. -/
def SysInv {n : Nat} (s : Sys n) : Prop :=
  s.constructed ≤ 1 ∧
  (s.initialized = true ↔ s.constructed = 1) ∧
  s.target = (if s.initialized then some 0 else none) ∧
  (∀ i v, s.threads i = TState.done v → s.initialized = true ∧ v = 0)

theorem char_ofNat_toNat_small :
    ∀ n : Fin 123, 97 ≤ n.val → (Char.ofNat n.val).toNat = n.val := by
  decide

theorem lowerChar_idem (c : Char) : lowerChar (lowerChar c) = lowerChar c := by
  unfold lowerChar
  by_cases h : 65 ≤ c.toNat ∧ c.toNat ≤ 90
  · simp only [if_pos h]
    have h2 : (Char.ofNat (c.toNat + 32)).toNat = c.toNat + 32 :=
      char_ofNat_toNat_small ⟨c.toNat + 32, by omega⟩ (by simp; omega)
    rw [if_neg]
    omega
  · simp only [if_neg h]

theorem lowerList_idem (l : List Char) :
    (l.map lowerChar).map lowerChar = l.map lowerChar := by
  induction l with
  | nil => rfl
  | cons c t ih => simp only [List.map_cons, lowerChar_idem, ih]

theorem lowerStr_idem (s : String) : lowerStr (lowerStr s) = lowerStr s :=
  congrArg String.mk (lowerList_idem s.data)

theorem normName_idem (cs : Bool) (n : String) :
    normName cs (normName cs n) = normName cs n := by
  cases cs <;> simp [normName, lowerStr_idem]

theorem alookup_append_some {α : Type} {l1 : List (String × α)} (l2 : List (String × α))
    {k : String} {v : α} (h : alookup l1 k = some v) : alookup (l1 ++ l2) k = some v := by
  induction l1 with
  | nil => cases h
  | cons p t ih =>
    by_cases hp : p.1 = k
    · simp [alookup, hp] at h ⊢
      exact h
    · simp [alookup, hp] at h ⊢
      exact ih h

theorem alookup_append_none {α : Type} {l1 : List (String × α)} (l2 : List (String × α))
    {k : String} (h : alookup l1 k = none) : alookup (l1 ++ l2) k = alookup l2 k := by
  induction l1 with
  | nil => rfl
  | cons p t ih =>
    by_cases hp : p.1 = k
    · simp [alookup, hp] at h
    · simp [alookup, hp] at h ⊢
      exact ih h

theorem alookup_eq_none_iff {α : Type} (l : List (String × α)) (k : String) :
    alookup l k = none ↔ ∀ p ∈ l, p.1 ≠ k := by
  induction l with
  | nil => simp [alookup]
  | cons p t ih =>
    by_cases hp : p.1 = k
    · simp [alookup, hp]
    · simp [alookup, hp, ih]

theorem alookup_mem_of_nodup {α : Type} {l : List (String × α)}
    (hnd : (l.map Prod.fst).Nodup) {a : String} {c : α} (h : (a, c) ∈ l) :
    alookup l a = some c := by
  induction l with
  | nil => cases h
  | cons p t ih =>
    rcases List.mem_cons.mp h with he | hmem
    · rw [← he]
      simp [alookup]
    · have hp : p.1 ≠ a := by
        intro hpa
        have : a ∈ t.map Prod.fst := List.mem_map_of_mem Prod.fst hmem
        rw [List.map_cons, List.nodup_cons] at hnd
        exact hnd.1 (hpa ▸ this)
      simp [alookup, hp]
      exact ih (by rw [List.map_cons, List.nodup_cons] at hnd; exact hnd.2) hmem

theorem alookup_some_mem {α : Type} {l : List (String × α)} {k : String} {v : α}
    (h : alookup l k = some v) : (k, v) ∈ l := by
  induction l with
  | nil => cases h
  | cons p t ih =>
    by_cases hp : p.1 = k
    · simp [alookup, hp] at h
      exact List.mem_cons.mpr (Or.inl (by rw [← hp, ← h]))
    · simp [alookup, hp] at h
      exact List.mem_cons_of_mem _ (ih h)

/-- C1: for the input YF → YAHOO_FINANCE, YAHOO_FINANCE → SOMETHING_ELSE,
construction with conflicts not allowed raises a configuration error whose
message mentions both colliding names (YAHOO_FINANCE and YF); the same input
with conflicts allowed succeeds, resolve YF = YAHOO_FINANCE and
resolve YAHOO_FINANCE = SOMETHING_ELSE (the later conflicting entry wins). -/
theorem c1_conflict_construction :
    (∃ msg, AliasRegistry.make
        [("YF", "YAHOO_FINANCE"), ("YAHOO_FINANCE", "SOMETHING_ELSE")] true false =
        .error msg ∧
      strContains msg "Conflict" = true ∧
      strContains msg "YAHOO_FINANCE" = true ∧
      strContains msg "YF" = true) ∧
    (∃ r, AliasRegistry.make
        [("YF", "YAHOO_FINANCE"), ("YAHOO_FINANCE", "SOMETHING_ELSE")] true true =
        .ok r ∧
      r.resolve "YF" = "YAHOO_FINANCE" ∧
      r.resolve "YAHOO_FINANCE" = "SOMETHING_ELSE") := by
  constructor
  · exact ⟨"Conflict: alias YAHOO_FINANCE collides with the canonical target YAHOO_FINANCE of alias YF",
      by rfl, by rfl, by rfl, by rfl⟩
  · exact ⟨⟨[("YF", "YAHOO_FINANCE"), ("YAHOO_FINANCE", "SOMETHING_ELSE")],
      [("YAHOO_FINANCE", "YF"), ("SOMETHING_ELSE", "YAHOO_FINANCE")], true⟩,
      by rfl, by rfl, by rfl⟩

/-- C6: in a case-insensitive registry built from yf → yahoo_finance, every
case variant of a registered name behaves identically on every lookup path:
any variant of yf resolves to yahoo_finance, membership holds for any
variant of either registered name, and get_alias returns yf for any case
variant of yahoo_finance (a case variant is any string whose lower-casing is
the stored name). -/
theorem c6_case_insensitive :
    AliasRegistry.make [("yf", "yahoo_finance")] false false = .ok regC6 ∧
    regC6.resolve "YF" = "yahoo_finance" ∧
    regC6.resolve "Yf" = "yahoo_finance" ∧
    regC6.resolve "yf" = "yahoo_finance" ∧
    regC6.contains "yf" = true ∧
    regC6.contains "YF" = true ∧
    regC6.contains "yahoo_finance" = true ∧
    regC6.contains "YAHOO_FINANCE" = true ∧
    regC6.get_alias "yahoo_finance" = some "yf" ∧
    regC6.get_alias "YAHOO_FINANCE" = some "yf" ∧
    regC6.get_alias "Yahoo_Finance" = some "yf" ∧
    (∀ v, lowerStr v = "yf" → regC6.resolve v = "yahoo_finance") ∧
    (∀ v, lowerStr v = "yf" ∨ lowerStr v = "yahoo_finance" →
      regC6.contains v = true) ∧
    (∀ v, lowerStr v = "yahoo_finance" → regC6.get_alias v = some "yf") := by
  refine ⟨by rfl, by rfl, by rfl, by rfl, by rfl, by rfl, by rfl, by rfl, by rfl,
    by rfl, by rfl, ?_, ?_, ?_⟩
  · intro v hv
    simp [regC6, AliasRegistry.resolve, normName, hv, alookup]
  · rintro v (hv | hv) <;>
      simp [regC6, AliasRegistry.contains, AliasRegistry.is_alias,
        AliasRegistry.is_canonical, normName, hv, alookup]
  · intro v hv
    simp [regC6, AliasRegistry.get_alias, normName, hv, alookup]

/-- Witness for C6 at a mixed-case variant not listed in the tests. -/
theorem c6_case_insensitive_witness :
    regC6.get_alias "YaHoO_fInAnCe" = some "yf" :=
  c6_case_insensitive.2.2.2.2.2.2.2.2.2.2.2.2.2 "YaHoO_fInAnCe" (by decide)

/-- C2: on a registry built without conflicts, resolve is total — a declared
alias resolves to its canonical target, a canonical-only name resolves to
itself, and an unknown name resolves to itself. -/
theorem c2_resolve_total (pairs : List (String × String)) (cs : Bool)
    (r : AliasRegistry) (h : AliasRegistry.make pairs cs false = .ok r)
    (name : String) :
    (∀ c, alookup r.fwd (normName r.caseSensitive name) = some c →
      r.resolve name = c) ∧
    (r.is_alias name = false → r.is_canonical name = true → r.resolve name = name) ∧
    (r.is_alias name = false → r.is_canonical name = false → r.resolve name = name) := by
  have hmiss : r.is_alias name = false → r.resolve name = name := by
    intro hs
    unfold AliasRegistry.is_alias at hs
    cases hl : alookup r.fwd (normName r.caseSensitive name) with
    | none => simp [AliasRegistry.resolve, hl]
    | some c => rw [hl] at hs; simp at hs
  exact ⟨fun c hc => by simp [AliasRegistry.resolve, hc],
    fun ha _ => hmiss ha, fun ha _ => hmiss ha⟩

/-- Witness for C2 at the concrete registry YF → YAHOO_FINANCE and the
unknown name UNKNOWN. -/
theorem c2_resolve_total_witness : regC2.resolve "UNKNOWN" = "UNKNOWN" :=
  (c2_resolve_total [("YF", "YAHOO_FINANCE")] true regC2 rfl "UNKNOWN").2.2
    (by decide) (by decide)

/-- C8: indexed access fails exactly on names that are not declared aliases,
and equals resolve on declared aliases, while get returns its default
instead of failing. -/
theorem c8_lookup_paths (pairs : List (String × String)) (cs ac : Bool)
    (r : AliasRegistry) (h : AliasRegistry.make pairs cs ac = .ok r)
    (name : String) :
    ((∃ e, r.getItem name = .error e) ↔ r.is_alias name = false) ∧
    (r.is_alias name = true → r.getItem name = .ok (r.resolve name)) ∧
    (∀ dflt, r.get name dflt =
      if r.is_alias name then some (r.resolve name) else dflt) := by
  cases hl : alookup r.fwd (normName r.caseSensitive name) with
  | none =>
    refine ⟨?_, ?_, ?_⟩
    · simp [AliasRegistry.getItem, AliasRegistry.is_alias, hl]
    · intro ha; rw [AliasRegistry.is_alias, hl] at ha; simp at ha
    · intro dflt
      simp [AliasRegistry.get, AliasRegistry.is_alias, hl]
  | some c =>
    refine ⟨?_, ?_, ?_⟩
    · simp [AliasRegistry.getItem, AliasRegistry.is_alias, hl]
    · intro _
      simp [AliasRegistry.getItem, AliasRegistry.resolve, hl]
    · intro dflt
      simp [AliasRegistry.get, AliasRegistry.is_alias, AliasRegistry.resolve, hl]

/-- Witness for C8 at the two-alias registry and the unknown name. -/
theorem c8_lookup_paths_witness : (∃ e, regC8.getItem "UNKNOWN" = .error e) :=
  (c8_lookup_paths [("YF", "YAHOO_FINANCE"), ("FMP", "FINANCIAL_MODELING_PREP")]
    true false regC8 rfl "UNKNOWN").1.mpr (by decide)

/-- C5: wrapper construction never raises — the wrapper simply starts with
no target; a missing target class is reported from the first emit with an
error stating a target class must be specified; an unresolvable target class
identifier is reported from the first emit with an error naming it. -/
theorem c5_lazy_errors (fn : String) (kw : List (String × String)) (lvl : Nat)
    (r : LogRecord) :
    ((LazyHandler.init fn none kw lvl).target = none ∧
     (LazyHandler.init fn none kw lvl).createdCount = 0) ∧
    ((LazyHandler.init fn none kw lvl).emit r =
      .error "target_class must be specified for LazyHandler") ∧
    (∀ cls, resolveTargetClass cls = none →
      (LazyHandler.init fn (some cls) kw lvl).target = none ∧
      (LazyHandler.init fn (some cls) kw lvl).emit r =
        .error ("Failed to import target handler class " ++ cls)) := by
  refine ⟨⟨rfl, rfl⟩, rfl, ?_⟩
  intro cls hcls
  refine ⟨rfl, ?_⟩
  simp [LazyHandler.emit, LazyHandler.ensureTarget, LazyHandler.init, hcls]

/-- Witness for C5 with the unresolvable identifier from the tests. -/
theorem c5_lazy_errors_witness :
    (LazyHandler.init "/tmp/test.log" (some "nonexistent.module.Handler") [] 0).emit
      ⟨"test", 20, "Test"⟩ =
      .error ("Failed to import target handler class " ++ "nonexistent.module.Handler") :=
  ((c5_lazy_errors "/tmp/test.log" [] 0 ⟨"test", 20, "Test"⟩).2.2
    "nonexistent.module.Handler" (by decide)).2

/-- C10: add_logger_prefix fails exactly when the config has no loggers
section; otherwise the root logger and a logger named like the prefix keep
their names, every other logger name is prefixed, the logger configurations
and the other top-level entries are carried through unchanged. -/
theorem c10_logger_renaming {α β : Type} (cfg : LoggingConfig α β) (pfx : String) :
    ((∃ e, add_logger_prefix cfg pfx = .error e) ↔ cfg.loggers = none) ∧
    (∀ ls, cfg.loggers = some ls →
      ∃ ls2, add_logger_prefix cfg pfx = .ok ⟨some ls2, cfg.rest⟩ ∧
        ls2.length = ls.length ∧
        (∀ p ∈ ls, p.1 = "root" → (p.1, p.2) ∈ ls2) ∧
        (∀ p ∈ ls, p.1 = pfx → (p.1, p.2) ∈ ls2) ∧
        (∀ p ∈ ls, p.1 ≠ "root" → p.1 ≠ pfx → (pfx ++ "." ++ p.1, p.2) ∈ ls2) ∧
        (∀ q ∈ ls2, ∃ p ∈ ls,
          q = (if p.1 = "root" ∨ p.1 = pfx then p.1 else pfx ++ "." ++ p.1, p.2))) := by
  cases hl : cfg.loggers with
  | none =>
    refine ⟨?_, ?_⟩
    · simp [ add_logger_prefix, hl]
    · intro ls hls
      exact Option.noConfusion hls
  | some ls0 =>
    refine ⟨?_, ?_⟩
    · constructor
      · rintro ⟨e, he⟩
        simp [ add_logger_prefix, hl] at he
      · intro h0
        exact Option.noConfusion h0
    · intro ls hls
      have hls0 : ls0 = ls := Option.some.inj hls
      subst hls0
      refine ⟨ls0.map (fun p =>
          (if p.1 = "root" ∨ p.1 = pfx then p.1 else pfx ++ "." ++ p.1, p.2)),
        by simp [ add_logger_prefix, hl], by simp, ?_, ?_, ?_, ?_⟩
      · intro p hp hr
        have hm : ((if p.1 = "root" ∨ p.1 = pfx then p.1 else pfx ++ "." ++ p.1, p.2) :
            String × α) ∈ ls0.map (fun p : String × α =>
              (if p.1 = "root" ∨ p.1 = pfx then p.1 else pfx ++ "." ++ p.1, p.2)) :=
          List.mem_map_of_mem _ hp
        rw [if_pos (Or.inl hr)] at hm
        exact hm
      · intro p hp hr
        have hm : ((if p.1 = "root" ∨ p.1 = pfx then p.1 else pfx ++ "." ++ p.1, p.2) :
            String × α) ∈ ls0.map (fun p : String × α =>
              (if p.1 = "root" ∨ p.1 = pfx then p.1 else pfx ++ "." ++ p.1, p.2)) :=
          List.mem_map_of_mem _ hp
        rw [if_pos (Or.inr hr)] at hm
        exact hm
      · intro p hp hr1 hr2
        have hm : ((if p.1 = "root" ∨ p.1 = pfx then p.1 else pfx ++ "." ++ p.1, p.2) :
            String × α) ∈ ls0.map (fun p : String × α =>
              (if p.1 = "root" ∨ p.1 = pfx then p.1 else pfx ++ "." ++ p.1, p.2)) :=
          List.mem_map_of_mem _ hp
        rw [if_neg (by simp [hr1, hr2])] at hm
        exact hm
      · intro q hq
        rcases List.mem_map.mp hq with ⟨p, hp, hpq⟩
        exact ⟨p, hp, hpq.symm⟩

/-- Witness for C10 at a concrete config with a root and a named logger. -/
theorem c10_logger_renaming_witness :
    ∃ ls2, add_logger_prefix cfgC10 "pfeed" = .ok ⟨some ls2, cfgC10.rest⟩ ∧
      ls2.length = ([("root", 1), ("myapp", 2)] : List (String × Nat)).length ∧
      (∀ p ∈ ([("root", 1), ("myapp", 2)] : List (String × Nat)), p.1 = "root" →
        (p.1, p.2) ∈ ls2) ∧
      (∀ p ∈ ([("root", 1), ("myapp", 2)] : List (String × Nat)), p.1 = "pfeed" →
        (p.1, p.2) ∈ ls2) ∧
      (∀ p ∈ ([("root", 1), ("myapp", 2)] : List (String × Nat)), p.1 ≠ "root" →
        p.1 ≠ "pfeed" → ("pfeed" ++ "." ++ p.1, p.2) ∈ ls2) ∧
      (∀ q ∈ ls2, ∃ p ∈ ([("root", 1), ("myapp", 2)] : List (String × Nat)),
        q = (if p.1 = "root" ∨ p.1 = "pfeed" then p.1 else "pfeed" ++ "." ++ p.1, p.2)) :=
  (c10_logger_renaming cfgC10 "pfeed").2 [("root", 1), ("myapp", 2)] rfl

theorem handleAll_rejected (h : LazyHandler) (rs : List LogRecord)
    (hpass : ∀ x ∈ rs, recordPasses h x = false) : h.handleAll rs = .ok h := by
  induction rs with
  | nil => rfl
  | cons r t ih =>
    have hr : recordPasses h r = false := hpass r (List.mem_cons_self r t)
    have hh : h.handle r = .ok h := by simp [LazyHandler.handle, hr]
    simp only [LazyHandler.handleAll, hh]
    exact ih (fun x hx => hpass x (List.mem_cons_of_mem r hx))

/-- C3: the target sink is never constructed before the first record that
passes the severity threshold and the filters — handling any number of
rejected records leaves the handler untouched (so nothing is created), the
first passing record constructs the target exactly once, and an emit on an
already-constructed handler constructs nothing further. -/
theorem c3_lazy_until_first (h : LazyHandler) (rs : List LogRecord)
    (h0 : h.target = none)
    (hrs : ∀ x ∈ rs, x.levelno < h.level ∨ ∃ f ∈ h.filters, f x = false) :
    h.handleAll rs = .ok h ∧
    (∀ r cls, h.level ≤ r.levelno → (∀ f ∈ h.filters, f r = true) →
      h.target_class = some cls → (resolveTargetClass cls).isSome = true →
      ∃ h2, h.handle r = .ok h2 ∧ h2.target.isSome = true ∧
        h2.createdCount = h.createdCount + 1) ∧
    (∀ (g : LazyHandler) (y : LogRecord), g.target.isSome = true →
      ∃ g2, g.emit y = .ok g2 ∧ g2.createdCount = g.createdCount ∧
        g2.target.isSome = true) := by
  refine ⟨?_, ?_, ?_⟩
  · apply handleAll_rejected
    intro x hx
    rcases hrs x hx with hlt | ⟨f, hf, hfx⟩
    · have hn : ¬ h.level ≤ x.levelno := Nat.not_le.mpr hlt
      simp [recordPasses, hn]
    · have hall : h.filters.all (fun f2 => f2 x) = false := by
        cases hallc : h.filters.all (fun f2 => f2 x) with
        | false => rfl
        | true => exact absurd (List.all_eq_true.mp hallc f hf) (by simp [hfx])
      simp [recordPasses, hall]
  · intro r cls hle hfs hcls hres
    have hp : recordPasses h r = true := by
      simp only [recordPasses, Bool.and_eq_true, decide_eq_true_eq, List.all_eq_true]
      exact ⟨hle, hfs⟩
    cases hr2 : resolveTargetClass cls with
    | none => rw [hr2] at hres; simp at hres
    | some cls2 =>
      refine ⟨{ h with
          target := some ⟨cls2, h.filename, h.target_kwargs, h.hname, h.level, [r]⟩,
          createdCount := h.createdCount + 1 }, ?_, rfl, rfl⟩
      simp [LazyHandler.handle, hp, LazyHandler.emit, LazyHandler.ensureTarget,
        h0, hcls, hr2]
  · intro g y hg
    cases ht : g.target with
    | none => rw [ht] at hg; simp at hg
    | some t =>
      exact ⟨{ g with target := some { t with written := t.written ++ [y] } },
        by simp [LazyHandler.emit, LazyHandler.ensureTarget, ht], rfl, rfl⟩

/-- Witness for C3: three below-threshold records change nothing, then one
ERROR record constructs the target exactly once. -/
theorem c3_lazy_until_first_witness :
    hC3.handleAll rsC3 = .ok hC3 ∧
    (∃ h2, hC3.handle ⟨"test", 40, "Error message"⟩ = .ok h2 ∧
      h2.target.isSome = true ∧ h2.createdCount = hC3.createdCount + 1) :=
  ⟨(c3_lazy_until_first hC3 rsC3 rfl (by decide)).1,
   (c3_lazy_until_first hC3 rsC3 rfl (by decide)).2.1 ⟨"test", 40, "Error message"⟩
     "logging.FileHandler" (by decide) (by intro f hf; cases hf) rfl (by decide)⟩

theorem revInsert_false_self (acc : List (String × String)) (c a : String) :
    alookup (revInsert false acc c a) c = (alookup acc c).or (some a) := by
  unfold revInsert
  cases hl : alookup acc c with
  | some v => simp [hl]
  | none =>
    simp only [hl, Option.isSome_none, Bool.false_eq_true, if_false, Option.none_or]
    rw [alookup_append_none _ hl]
    simp [alookup]

theorem revInsert_false_ne (acc : List (String × String)) (c a k : String)
    (hne : c ≠ k) : alookup (revInsert false acc c a) k = alookup acc k := by
  unfold revInsert
  cases hl : alookup acc c with
  | some v => simp [hl]
  | none =>
    simp only [hl, Option.isSome_none, Bool.false_eq_true, if_false]
    cases hk : alookup acc k with
    | some w => rw [alookup_append_some _ hk]
    | none =>
      rw [alookup_append_none _ hk]
      simp [alookup, hne]

theorem buildRev_false_alookup (fwd : List (String × String)) :
    ∀ (acc : List (String × String)) (k : String),
    alookup (buildRev false acc fwd) k =
      (alookup acc k).or ((fwd.find? (fun q => q.2 == k)).map Prod.fst) := by
  induction fwd with
  | nil =>
    intro acc k
    simp [buildRev]
  | cons p t ih =>
    intro acc k
    obtain ⟨a, c⟩ := p
    by_cases hc : c = k
    · subst hc
      simp only [buildRev]
      rw [ih, revInsert_false_self, Option.or_assoc]
      congr 1
      rw [List.find?_cons_of_pos _ (by simp)]
      simp
    · simp only [buildRev]
      rw [ih, revInsert_false_ne _ _ _ _ hc]
      rw [List.find?_cons_of_neg _ (by simp [hc])]

theorem revInsert_false_nodup (acc : List (String × String)) (c a : String)
    (h : (acc.map Prod.fst).Nodup) :
    ((revInsert false acc c a).map Prod.fst).Nodup := by
  unfold revInsert
  cases hl : alookup acc c with
  | some v => simp [hl]; exact h
  | none =>
    simp only [hl, Option.isSome_none, Bool.false_eq_true, if_false]
    rw [List.map_append, List.nodup_append]
    refine ⟨h, by simp, ?_⟩
    intro x hx hx2
    simp at hx2
    rcases List.mem_map.mp hx with ⟨p, hp, hpc⟩
    exact (alookup_eq_none_iff acc c).mp hl p hp (hpc.trans hx2)

theorem buildRev_false_nodup (fwd : List (String × String)) :
    ∀ acc, (acc.map Prod.fst).Nodup →
      ((buildRev false acc fwd).map Prod.fst).Nodup := by
  induction fwd with
  | nil =>
    intro acc h
    simpa [buildRev] using h
  | cons p t ih =>
    intro acc h
    obtain ⟨a, c⟩ := p
    simp only [buildRev]
    exact ih _ (revInsert_false_nodup acc c a h)

theorem make_ok_inv (pairs : List (String × String)) (cs ac : Bool)
    (r : AliasRegistry) (h : AliasRegistry.make pairs cs ac = .ok r) :
    r.fwd = pairs.map (fun p => (normName cs p.1, normName cs p.2)) ∧
    r.rev = buildRev ac [] r.fwd ∧
    r.caseSensitive = cs := by
  cases ac with
  | true =>
    simp [AliasRegistry.make] at h
    subst h
    exact ⟨rfl, rfl, rfl⟩
  | false =>
    simp only [AliasRegistry.make, Bool.false_eq_true, if_false] at h
    cases hfc : findConflict []
        (pairs.map (fun p => (normName cs p.1, normName cs p.2))) with
    | some msg => rw [hfc] at h; simp at h
    | none =>
      rw [hfc] at h
      simp at h
      subst h
      exact ⟨rfl, rfl, rfl⟩

/-- C7: when each canonical name has exactly one alias (and alias keys are
unique, as for a dict input), get_alias after resolve round-trips every
declared alias; and in general the reverse export has exactly one entry per
canonical name, namely the first-registered alias for it. -/
theorem c7_reverse_roundtrip (pairs : List (String × String)) (cs : Bool)
    (r : AliasRegistry) (h : AliasRegistry.make pairs cs false = .ok r) :
    ((r.fwd.map Prod.fst).Nodup →
      (∀ p ∈ r.fwd, ∀ q ∈ r.fwd, p.2 = q.2 → p.1 = q.1) →
      ∀ p ∈ pairs, r.get_alias (r.resolve p.1) = some (normName cs p.1)) ∧
    (r.to_reverse_dict.map Prod.fst).Nodup ∧
    (∀ c, alookup r.to_reverse_dict c =
      (r.fwd.find? (fun q => q.2 == c)).map Prod.fst) := by
  obtain ⟨hfwd, hrev, hcs⟩ := make_ok_inv pairs cs false r h
  have hlook : ∀ c, alookup r.rev c =
      (r.fwd.find? (fun q => q.2 == c)).map Prod.fst := by
    intro c
    rw [hrev, buildRev_false_alookup]
    simp [alookup]
  refine ⟨?_, ?_, hlook⟩
  · intro hnd hinj p hp
    have hmem : (normName cs p.1, normName cs p.2) ∈ r.fwd := by
      rw [hfwd]
      have : ((normName cs p.1, normName cs p.2) : String × String) ∈
          pairs.map (fun q => (normName cs q.1, normName cs q.2)) :=
        List.mem_map_of_mem _ hp
      exact this
    have hres : r.resolve p.1 = normName cs p.2 := by
      simp [AliasRegistry.resolve, hcs, alookup_mem_of_nodup hnd hmem]
    rw [hres]
    unfold AliasRegistry.get_alias
    rw [hcs, normName_idem, hlook]
    have hsome : (r.fwd.find? (fun q => q.2 == normName cs p.2)).isSome :=
      List.find?_isSome.mpr ⟨_, hmem, by simp⟩
    rcases Option.isSome_iff_exists.mp hsome with ⟨q, hq⟩
    have hqmem : q ∈ r.fwd := List.mem_of_find?_eq_some hq
    have hq2 : q.2 = normName cs p.2 := by
      have := List.find?_some hq
      simpa using this
    have hq1 : q.1 = normName cs p.1 :=
      hinj q hqmem (normName cs p.1, normName cs p.2) hmem (by rw [hq2])
    rw [hq]
    simp [hq1]
  · show (List.map Prod.fst r.rev).Nodup
    rw [hrev]
    exact buildRev_false_nodup r.fwd [] (by simp)

/-- Witness for C7 at a registry where two aliases share one canonical
name: the reverse export keeps the first-registered alias. -/
theorem c7_reverse_roundtrip_witness :
    alookup regC7.to_reverse_dict "X" =
      (regC7.fwd.find? (fun q => q.2 == "X")).map Prod.fst :=
  (c7_reverse_roundtrip [("A", "X"), ("B", "X")] true regC7 rfl).2.2 "X"

theorem alookup_map_replace_self (d : List (String × CliValue)) (k : String)
    (v : CliValue) (hex : ∃ p ∈ d, p.1 = k) :
    alookup (d.map (fun p => if p.1 = k then (k, v) else p)) k = some v := by
  induction d with
  | nil => rcases hex with ⟨p, hp, _⟩; cases hp
  | cons p t ih =>
    by_cases hp : p.1 = k
    · simp [alookup, hp]
    · rcases hex with ⟨q, hq, hqk⟩
      rcases List.mem_cons.mp hq with rfl | hqt
      · exact absurd hqk hp
      · simp [alookup, hp]
        exact ih ⟨q, hqt, hqk⟩

theorem alookup_map_replace_ne (d : List (String × CliValue)) (k k2 : String)
    (v : CliValue) (hne : k2 ≠ k) :
    alookup (d.map (fun p => if p.1 = k then (k, v) else p)) k2 = alookup d k2 := by
  induction d with
  | nil => rfl
  | cons p t ih =>
    by_cases hp : p.1 = k
    · have hkk2 : k ≠ k2 := fun h => hne h.symm
      simp [alookup, hp, hkk2, ih]
    · simp only [List.map_cons, if_neg hp, alookup, ih]

theorem alookup_dictInsert_self (d : List (String × CliValue)) (k : String)
    (v : CliValue) : alookup (dictInsert d k v) k = some v := by
  unfold dictInsert
  by_cases hany : d.any (fun p => decide (p.1 = k)) = true
  · rw [if_pos hany]
    apply alookup_map_replace_self
    rcases List.any_eq_true.mp hany with ⟨p, hp, hpk⟩
    exact ⟨p, hp, of_decide_eq_true hpk⟩
  · rw [if_neg hany]
    have hnone : alookup d k = none := by
      rw [alookup_eq_none_iff]
      intro p hp hpk
      exact hany (List.any_eq_true.mpr ⟨p, hp, decide_eq_true hpk⟩)
    rw [alookup_append_none _ hnone]
    simp [alookup]

theorem alookup_dictInsert_ne (d : List (String × CliValue)) (k k2 : String)
    (v : CliValue) (hne : k2 ≠ k) :
    alookup (dictInsert d k v) k2 = alookup d k2 := by
  unfold dictInsert
  by_cases hany : d.any (fun p => decide (p.1 = k)) = true
  · rw [if_pos hany]
    exact alookup_map_replace_ne d k k2 v hne
  · rw [if_neg hany]
    cases hk2 : alookup d k2 with
    | some w => rw [alookup_append_some _ hk2]
    | none =>
      rw [alookup_append_none _ hk2]
      simp [alookup, Ne.symm hne]

theorem alookup_dictInsert_isSome (d : List (String × CliValue)) (k k2 : String)
    (v : CliValue) :
    (alookup (dictInsert d k v) k2).isSome = true ↔
      (k2 = k ∨ (alookup d k2).isSome = true) := by
  by_cases hk : k2 = k
  · subst hk
    simp [alookup_dictInsert_self]
  · rw [alookup_dictInsert_ne d k k2 v hk]
    simp [hk]

theorem optionKeys_cons_pos (a : String) (l : List String)
    (h : strStartsWith a "--" = true) :
    optionKeys (a :: l) = cliKey a :: optionKeys l := by
  simp [optionKeys, List.filter_cons, h]

theorem optionKeys_cons_neg (a : String) (l : List String)
    (h : ¬ strStartsWith a "--" = true) :
    optionKeys (a :: l) = optionKeys l := by
  simp [optionKeys, List.filter_cons, h]

theorem mem_optionKeys (x : String) (l : List String) (hx : x ∈ l)
    (hs : strStartsWith x "--" = true) : cliKey x ∈ optionKeys l :=
  List.mem_map_of_mem cliKey (List.mem_filter.mpr ⟨hx, hs⟩)

theorem cliLoop_keys_aux : ∀ (n : Nat) (args : List String), args.length ≤ n →
    ∀ (acc : List (String × CliValue)) (k : String),
    ((alookup (cliLoop acc args) k).isSome = true ↔
      ((alookup acc k).isSome = true ∨
        ∃ a ∈ args, strStartsWith a "--" = true ∧ cliKey a = k)) := by
  intro n
  induction n with
  | zero =>
    intro args hlen acc k
    have hargs : args = [] := List.eq_nil_of_length_eq_zero (Nat.le_zero.mp hlen)
    subst hargs
    simp [cliLoop]
  | succ m ih =>
    intro args hlen acc k
    rcases args with _ | ⟨a, rest0⟩
    · simp [cliLoop]
    rcases rest0 with _ | ⟨b, rest⟩
    · by_cases ha : strStartsWith a "--" = true
      · simp only [cliLoop, if_pos ha]
        rw [alookup_dictInsert_isSome]
        constructor
        · rintro (hk | hacc)
          · exact Or.inr ⟨a, by simp, ha, hk.symm⟩
          · exact Or.inl hacc
        · rintro (hacc | ⟨a2, ha2, hs2, hk2⟩)
          · exact Or.inr hacc
          · simp at ha2
            subst ha2
            exact Or.inl hk2.symm
      · simp only [cliLoop, if_neg ha]
        constructor
        · exact Or.inl
        · rintro (hacc | ⟨a2, ha2, hs2, hk2⟩)
          · exact hacc
          · simp at ha2
            subst ha2
            exact absurd hs2 ha
    · have hlen2 : (b :: rest).length ≤ m := by
        simp at hlen ⊢
        omega
      have hlen3 : rest.length ≤ m := by
        simp at hlen ⊢
        omega
      by_cases ha : strStartsWith a "--" = true
      · by_cases hb : strStartsWith b "--" = true
        · simp only [cliLoop, if_pos ha, if_pos hb]
          rw [ih _ hlen2, alookup_dictInsert_isSome]
          constructor
          · rintro ((hk | hacc) | hex)
            · exact Or.inr ⟨a, by simp, ha, hk.symm⟩
            · exact Or.inl hacc
            · rcases hex with ⟨x, hx, hsx, hkx⟩
              exact Or.inr ⟨x, by simp [hx], hsx, hkx⟩
          · rintro (hacc | ⟨x, hx, hsx, hkx⟩)
            · exact Or.inl (Or.inr hacc)
            · rcases List.mem_cons.mp hx with rfl | hx2
              · exact Or.inl (Or.inl hkx.symm)
              · exact Or.inr ⟨x, hx2, hsx, hkx⟩
        · simp only [cliLoop, if_pos ha, if_neg hb]
          rw [ih _ hlen3, alookup_dictInsert_isSome]
          constructor
          · rintro ((hk | hacc) | hex)
            · exact Or.inr ⟨a, by simp, ha, hk.symm⟩
            · exact Or.inl hacc
            · rcases hex with ⟨x, hx, hsx, hkx⟩
              exact Or.inr ⟨x, by simp [hx], hsx, hkx⟩
          · rintro (hacc | ⟨x, hx, hsx, hkx⟩)
            · exact Or.inl (Or.inr hacc)
            · rcases List.mem_cons.mp hx with rfl | hx2
              · exact Or.inl (Or.inl hkx.symm)
              · rcases List.mem_cons.mp hx2 with rfl | hx3
                · exact absurd hsx hb
                · exact Or.inr ⟨x, hx3, hsx, hkx⟩
      · simp only [cliLoop, if_neg ha]
        rw [ih _ hlen2]
        constructor
        · rintro (hacc | ⟨x, hx, hsx, hkx⟩)
          · exact Or.inl hacc
          · exact Or.inr ⟨x, by simp [hx], hsx, hkx⟩
        · rintro (hacc | ⟨x, hx, hsx, hkx⟩)
          · exact Or.inl hacc
          · rcases List.mem_cons.mp hx with rfl | hx2
            · exact absurd hsx ha
            · exact Or.inr ⟨x, hx2, hsx, hkx⟩

theorem cliLoop_preserve : ∀ (n : Nat) (args : List String), args.length ≤ n →
    ∀ (acc : List (String × CliValue)) (k : String),
    (∀ a ∈ args, strStartsWith a "--" = true → cliKey a ≠ k) →
    alookup (cliLoop acc args) k = alookup acc k := by
  intro n
  induction n with
  | zero =>
    intro args hlen acc k _
    have hargs : args = [] := List.eq_nil_of_length_eq_zero (Nat.le_zero.mp hlen)
    subst hargs
    simp [cliLoop]
  | succ m ih =>
    intro args hlen acc k hno
    rcases args with _ | ⟨a, rest0⟩
    · simp [cliLoop]
    rcases rest0 with _ | ⟨b, rest⟩
    · by_cases ha : strStartsWith a "--" = true
      · simp only [cliLoop, if_pos ha]
        exact alookup_dictInsert_ne _ _ _ _ (Ne.symm (hno a (by simp) ha))
      · simp only [cliLoop, if_neg ha]
    · have hlen2 : (b :: rest).length ≤ m := by
        simp at hlen ⊢
        omega
      have hlen3 : rest.length ≤ m := by
        simp at hlen ⊢
        omega
      by_cases ha : strStartsWith a "--" = true
      · by_cases hb : strStartsWith b "--" = true
        · simp only [cliLoop, if_pos ha, if_pos hb]
          rw [ih _ hlen2 _ _ (fun x hx hsx => hno x (by simp [hx]) hsx)]
          exact alookup_dictInsert_ne _ _ _ _ (Ne.symm (hno a (by simp) ha))
        · simp only [cliLoop, if_pos ha, if_neg hb]
          rw [ih _ hlen3 _ _ (fun x hx hsx => hno x (by simp [hx]) hsx)]
          exact alookup_dictInsert_ne _ _ _ _ (Ne.symm (hno a (by simp) ha))
      · simp only [cliLoop, if_neg ha]
        exact ih _ hlen2 _ _ (fun x hx hsx => hno x (by simp [hx]) hsx)

theorem cliLoop_nil (acc : List (String × CliValue)) : cliLoop acc [] = acc := rfl

theorem cliLoop_single (acc : List (String × CliValue)) (a : String) :
    cliLoop acc [a] =
      if strStartsWith a "--" = true then dictInsert acc (cliKey a) CliValue.flag
      else acc := rfl

theorem cliLoop_cons_cons (acc : List (String × CliValue)) (x y : String)
    (rest : List String) :
    cliLoop acc (x :: y :: rest) =
      if strStartsWith x "--" = true then
        (if strStartsWith y "--" = true then
          cliLoop (dictInsert acc (cliKey x) CliValue.flag) (y :: rest)
        else cliLoop (dictInsert acc (cliKey x) (CliValue.str y)) rest)
      else cliLoop acc (y :: rest) := rfl

theorem cliLoop_val_head (acc : List (String × CliValue)) (a b : String)
    (post : List String) (ha : strStartsWith a "--" = true)
    (hnd : (optionKeys (a :: b :: post)).Nodup) :
    alookup (cliLoop acc (a :: b :: post)) (cliKey a) =
      some (if strStartsWith b "--" = true then CliValue.flag else CliValue.str b) := by
  have hnotin : cliKey a ∉ optionKeys (b :: post) := by
    rw [optionKeys_cons_pos a _ ha] at hnd
    exact (List.nodup_cons.mp hnd).1
  have hno : ∀ x ∈ b :: post, strStartsWith x "--" = true → cliKey x ≠ cliKey a := by
    intro x hx hsx hkx
    exact hnotin (hkx ▸ mem_optionKeys x _ hx hsx)
  by_cases hb : strStartsWith b "--" = true
  · rw [cliLoop_cons_cons, if_pos ha, if_pos hb,
      cliLoop_preserve (b :: post).length (b :: post) le_rfl _ _ hno,
      alookup_dictInsert_self, if_pos hb]
  · have hno2 : ∀ x ∈ post, strStartsWith x "--" = true → cliKey x ≠ cliKey a :=
      fun x hx => hno x (List.mem_cons_of_mem b hx)
    rw [cliLoop_cons_cons, if_pos ha, if_neg hb,
      cliLoop_preserve post.length post le_rfl _ _ hno2,
      alookup_dictInsert_self, if_neg hb]

theorem cliLoop_val_mid : ∀ (n : Nat) (pre : List String), pre.length ≤ n →
    ∀ (acc : List (String × CliValue)) (a b : String) (post : List String),
    strStartsWith a "--" = true →
    (optionKeys (pre ++ a :: b :: post)).Nodup →
    alookup (cliLoop acc (pre ++ a :: b :: post)) (cliKey a) =
      some (if strStartsWith b "--" = true then CliValue.flag else CliValue.str b) := by
  intro n
  induction n with
  | zero =>
    intro pre hlen acc a b post ha hnd
    have hpre : pre = [] := List.eq_nil_of_length_eq_zero (Nat.le_zero.mp hlen)
    subst hpre
    exact cliLoop_val_head acc a b post ha hnd
  | succ m ih =>
    intro pre hlen acc a b post ha hnd
    rcases pre with _ | ⟨p, pre2⟩
    · exact cliLoop_val_head acc a b post ha hnd
    rcases pre2 with _ | ⟨q, pre3⟩
    · simp only [List.cons_append, List.nil_append] at hnd ⊢
      by_cases hp : strStartsWith p "--" = true
      · rw [cliLoop_cons_cons, if_pos hp, if_pos ha]
        have hnd2 : (optionKeys (a :: b :: post)).Nodup := by
          rw [optionKeys_cons_pos p _ hp] at hnd
          exact (List.nodup_cons.mp hnd).2
        exact ih [] (Nat.zero_le m) _ a b post ha hnd2
      · rw [cliLoop_cons_cons, if_neg hp]
        have hnd2 : (optionKeys (a :: b :: post)).Nodup := by
          rw [optionKeys_cons_neg p _ hp] at hnd
          exact hnd
        exact ih [] (Nat.zero_le m) acc a b post ha hnd2
    · simp only [List.cons_append] at hnd ⊢
      have hlen3 : (q :: pre3).length ≤ m := by
        simp at hlen ⊢
        omega
      have hlen4 : pre3.length ≤ m := by
        simp at hlen ⊢
        omega
      by_cases hp : strStartsWith p "--" = true
      · by_cases hq : strStartsWith q "--" = true
        · rw [cliLoop_cons_cons, if_pos hp, if_pos hq]
          have hnd2 : (optionKeys ((q :: pre3) ++ a :: b :: post)).Nodup := by
            simp only [List.cons_append]
            rw [optionKeys_cons_pos p _ hp] at hnd
            exact (List.nodup_cons.mp hnd).2
          exact ih (q :: pre3) hlen3 _ a b post ha hnd2
        · rw [cliLoop_cons_cons, if_pos hp, if_neg hq]
          have hnd2 : (optionKeys (pre3 ++ a :: b :: post)).Nodup := by
            rw [optionKeys_cons_pos p _ hp] at hnd
            have h2 := (List.nodup_cons.mp hnd).2
            rw [optionKeys_cons_neg q _ hq] at h2
            exact h2
          exact ih pre3 hlen4 _ a b post ha hnd2
      · rw [cliLoop_cons_cons, if_neg hp]
        have hnd2 : (optionKeys ((q :: pre3) ++ a :: b :: post)).Nodup := by
          simp only [List.cons_append]
          rw [optionKeys_cons_neg p _ hp] at hnd
          exact hnd
        exact ih (q :: pre3) hlen3 acc a b post ha hnd2

theorem cliLoop_val_last : ∀ (n : Nat) (pre : List String), pre.length ≤ n →
    ∀ (acc : List (String × CliValue)) (a : String),
    strStartsWith a "--" = true →
    (optionKeys (pre ++ [a])).Nodup →
    alookup (cliLoop acc (pre ++ [a])) (cliKey a) = some CliValue.flag := by
  intro n
  induction n with
  | zero =>
    intro pre hlen acc a ha _
    have hpre : pre = [] := List.eq_nil_of_length_eq_zero (Nat.le_zero.mp hlen)
    subst hpre
    rw [List.nil_append, cliLoop_single, if_pos ha]
    exact alookup_dictInsert_self acc (cliKey a) CliValue.flag
  | succ m ih =>
    intro pre hlen acc a ha hnd
    rcases pre with _ | ⟨p, pre2⟩
    · rw [List.nil_append, cliLoop_single, if_pos ha]
      exact alookup_dictInsert_self acc (cliKey a) CliValue.flag
    rcases pre2 with _ | ⟨q, pre3⟩
    · simp only [List.cons_append, List.nil_append] at hnd ⊢
      by_cases hp : strStartsWith p "--" = true
      · rw [cliLoop_cons_cons, if_pos hp, if_pos ha]
        have hnd2 : (optionKeys [a]).Nodup := by
          rw [optionKeys_cons_pos p _ hp] at hnd
          exact (List.nodup_cons.mp hnd).2
        exact ih [] (Nat.zero_le m) _ a ha hnd2
      · rw [cliLoop_cons_cons, if_neg hp]
        have hnd2 : (optionKeys [a]).Nodup := by
          rw [optionKeys_cons_neg p _ hp] at hnd
          exact hnd
        exact ih [] (Nat.zero_le m) acc a ha hnd2
    · simp only [List.cons_append] at hnd ⊢
      have hlen3 : (q :: pre3).length ≤ m := by
        simp at hlen ⊢
        omega
      have hlen4 : pre3.length ≤ m := by
        simp at hlen ⊢
        omega
      by_cases hp : strStartsWith p "--" = true
      · by_cases hq : strStartsWith q "--" = true
        · rw [cliLoop_cons_cons, if_pos hp, if_pos hq]
          have hnd2 : (optionKeys ((q :: pre3) ++ [a])).Nodup := by
            simp only [List.cons_append]
            rw [optionKeys_cons_pos p _ hp] at hnd
            exact (List.nodup_cons.mp hnd).2
          exact ih (q :: pre3) hlen3 _ a ha hnd2
        · rw [cliLoop_cons_cons, if_pos hp, if_neg hq]
          have hnd2 : (optionKeys (pre3 ++ [a])).Nodup := by
            rw [optionKeys_cons_pos p _ hp] at hnd
            have h2 := (List.nodup_cons.mp hnd).2
            rw [optionKeys_cons_neg q _ hq] at h2
            exact h2
          exact ih pre3 hlen4 _ a ha hnd2
      · rw [cliLoop_cons_cons, if_neg hp]
        have hnd2 : (optionKeys ((q :: pre3) ++ [a])).Nodup := by
          simp only [List.cons_append]
          rw [optionKeys_cons_neg p _ hp] at hnd
          exact hnd
        exact ih (q :: pre3) hlen3 acc a ha hnd2

/-- C9: cli_args_to_kwargs never fails (it is a total function) and returns
a dict whose keys are exactly the transformed option tokens; when the option
keys are distinct, an option token followed by a non-option token gets that
token as its value, an option token followed by another option token or by
nothing gets the value True, and other tokens are ignored (they contribute
no key). -/
theorem c9_cli_args_to_kwargs (args : List String) :
    (∀ k, (alookup (cli_args_to_kwargs args) k).isSome = true ↔
      ∃ a ∈ args, strStartsWith a "--" = true ∧ cliKey a = k) ∧
    ((optionKeys args).Nodup →
      (∀ pre a b post, args = pre ++ a :: b :: post →
        strStartsWith a "--" = true →
        alookup (cli_args_to_kwargs args) (cliKey a) =
          some (if strStartsWith b "--" = true then CliValue.flag
            else CliValue.str b)) ∧
      (∀ pre a, args = pre ++ [a] → strStartsWith a "--" = true →
        alookup (cli_args_to_kwargs args) (cliKey a) = some CliValue.flag)) := by
  refine ⟨?_, fun hnd => ⟨?_, ?_⟩⟩
  · intro k
    have hk := cliLoop_keys_aux args.length args le_rfl [] k
    simpa [cli_args_to_kwargs, alookup] using hk
  · intro pre a b post heq ha
    subst heq
    exact cliLoop_val_mid pre.length pre le_rfl [] a b post ha hnd
  · intro pre a heq ha
    subst heq
    exact cliLoop_val_last pre.length pre le_rfl [] a ha hnd

/-- Witness for C9 on the docstring example: in verbose/timeout/30, the
verbose flag is followed by another option token, so its value is True. -/
theorem c9_cli_args_to_kwargs_witness :
    alookup (cli_args_to_kwargs argsC9) (cliKey "--verbose") =
      some (if strStartsWith "--timeout" "--" = true then CliValue.flag
        else CliValue.str "--timeout") :=
  ((c9_cli_args_to_kwargs argsC9).2 (by decide)).1 [] "--verbose" "--timeout" ["30"]
    rfl rfl

theorem sysInv_init (n : Nat) : SysInv (initSys n) := by
  refine ⟨by simp [initSys], by simp [initSys], by simp [initSys], ?_⟩
  intro i v h
  simp [initSys] at h

theorem sysInv_step {n : Nat} {s s2 : Sys n} (hinv : SysInv s) (hstep : Step s s2) :
    SysInv s2 := by
  obtain ⟨h1, h2, h3, h4⟩ := hinv
  cases hstep with
  | fastPath i v hpc hinit htgt =>
    refine ⟨h1, h2, h3, ?_⟩
    intro j w hj
    dsimp only at hj ⊢
    by_cases hij : j = i
    · subst hij
      rw [Function.update_same] at hj
      have hv0 : v = 0 := by
        rw [h3, hinit] at htgt
        simpa using htgt.symm
      cases hj
      exact ⟨hinit, hv0⟩
    · rw [Function.update_noteq hij] at hj
      exact h4 j w hj
  | slowStart i hpc hinit =>
    refine ⟨h1, h2, h3, ?_⟩
    intro j w hj
    dsimp only at hj ⊢
    by_cases hij : j = i
    · subst hij
      rw [Function.update_same] at hj
      exact TState.noConfusion hj
    · rw [Function.update_noteq hij] at hj
      exact h4 j w hj
  | acquire i hpc hlock =>
    refine ⟨h1, h2, h3, ?_⟩
    intro j w hj
    dsimp only at hj ⊢
    by_cases hij : j = i
    · subst hij
      rw [Function.update_same] at hj
      exact TState.noConfusion hj
    · rw [Function.update_noteq hij] at hj
      exact h4 j w hj
  | recheckHit i v hpc hlock hinit htgt =>
    refine ⟨h1, h2, h3, ?_⟩
    intro j w hj
    dsimp only at hj ⊢
    by_cases hij : j = i
    · subst hij
      rw [Function.update_same] at hj
      have hv0 : v = 0 := by
        rw [h3, hinit] at htgt
        simpa using htgt.symm
      cases hj
      exact ⟨hinit, hv0⟩
    · rw [Function.update_noteq hij] at hj
      exact h4 j w hj
  | construct i hpc hlock hinit =>
    have hc1 : s.constructed ≠ 1 := by
      intro hc
      rw [h2.mpr hc] at hinit
      cases hinit
    have hc0 : s.constructed = 0 := by omega
    refine ⟨by dsimp only; omega, by dsimp only; simp; omega,
      by dsimp only; simp [hc0], ?_⟩
    intro j w hj
    dsimp only at hj ⊢
    by_cases hij : j = i
    · subst hij
      rw [Function.update_same] at hj
      injection hj with hw
      exact ⟨rfl, by omega⟩
    · rw [Function.update_noteq hij] at hj
      rcases h4 j w hj with ⟨hi4, hv⟩
      rw [hinit] at hi4
      exact Bool.noConfusion hi4

theorem reachable_inv {n : Nat} {s : Sys n} (h : Reachable n s) : SysInv s := by
  induction h with
  | init => exact sysInv_init n
  | step hr hstep ih => exact sysInv_step ih hstep

/-- C4: from the all-uninitialized state, under any interleaving of the
double-checked locking protocol by any number of threads, at most one target
instance is ever constructed; any finished thread implies exactly one was
constructed and that it observed exactly the constructed instance, so all
finished threads observed the identical instance. -/
theorem c4_exactly_once (n : Nat) (s : Sys n) (h : Reachable n s) :
    s.constructed ≤ 1 ∧
    (∀ i v, s.threads i = TState.done v → s.constructed = 1 ∧ s.target = some v) ∧
    (∀ i j v w, s.threads i = TState.done v → s.threads j = TState.done w →
      v = w) := by
  obtain ⟨h1, h2, h3, h4⟩ := reachable_inv h
  refine ⟨h1, ?_, ?_⟩
  · intro i v hv
    rcases h4 i v hv with ⟨hi, hv0⟩
    refine ⟨h2.mp hi, ?_⟩
    rw [h3, hi, hv0]
    simp
  · intro i j v w hv hw
    rcases h4 i v hv with ⟨_, hv0⟩
    rcases h4 j w hw with ⟨_, hw0⟩
    rw [hv0, hw0]

/-- Witness for C4: a concrete interleaving of ten threads in which thread 0
runs the slow path and constructs instance 0 while thread 1 then takes the
fast path; the reached state has exactly one construction and target 0. -/
theorem c4_exactly_once_witness : sC4d.constructed = 1 ∧ sC4d.target = some 0 :=
  (c4_exactly_once 10 sC4d
    (Reachable.step
      (Reachable.step
        (Reachable.step
          (Reachable.step Reachable.init
            (Step.slowStart (initSys 10) 0 rfl rfl))
          (Step.acquire sC4a 0 rfl rfl))
        (Step.construct sC4b 0 rfl rfl rfl))
      (Step.fastPath sC4c 1 0 rfl rfl rfl))).2.1 1 0 (by decide)
